import Mathlib

/-!
# Verification of the terminal-cli job resolution and download-execution core

Shallow embedding of the Go sources of `redstone-finance/terminal-cli`
(`main.go` and the pooled variant with `check` mode).  Calendar dates are
modelled as `Nat` day indices (Go `time.Time` values at day granularity are
linearly ordered and `AddDate(0,0,1)` is the successor); the calendar
rendering used by path derivation is kept separate as a `CalDate` record.
Go maps (`map[string][]string`) are modelled as association lists with
distinct keys; external collaborators (filesystem, link-resolution service,
byte transport) are injected as function parameters.
-/

namespace TerminalCli

/-- Go `type Config map[string][]string`: an exchange-to-pairs table,
modelled as an association list.  Go maps never hold duplicate keys; where a
proof needs that fact it carries an explicit `keysNodup` hypothesis. -/
abbrev Config := List (String × List String)

/-- Keys of a table are pairwise distinct (the Go-map invariant). -/
def keysNodup (c : Config) : Prop := (c.map Prod.fst).Nodup

/-- Go map lookup `activeConfig[ex]` on the association-list model. -/
def lookupConfig (c : Config) (k : String) : Option (List String) :=
  match c with
  | [] => none
  | (k', v) :: rest => if k' == k then some v else lookupConfig rest k

/-- Go `func contains(slice []string, item string) bool` (`main.go`):
linear scan for an exact string match. -/
def contains (slice : List String) (item : String) : Bool :=
  match slice with
  | [] => false
  | s :: rest => if s == item then true else contains rest item

/-- Go `type ConfigRule struct { StartDate time.Time; Config Config }`. -/
structure ConfigRule where
  startDate : Nat
  config : Config

/-- Go `func getConfigForDate(rules []ConfigRule, date time.Time) Config`:
scan the rule list from the end (greatest index first) and return the first
rule whose `StartDate` is not after `date`; `nil` (here `none`) otherwise.
The recursion prefers the result found in the tail, which is exactly the
Go loop `for i := len(rules) - 1; i >= 0; i--`. -/
def getConfigForDate (rules : List ConfigRule) (date : Nat) : Option Config :=
  match rules with
  | [] => none
  | r :: rest =>
    match getConfigForDate rest date with
    | some c => some c
    | none => if r.startDate ≤ date then some r.config else none

/-- Index (into the rule list) of the rule selected by `getConfigForDate`:
the greatest index whose rule has `startDate ≤ date`. -/
def selIdx (rules : List ConfigRule) (date : Nat) : Option Nat :=
  match rules with
  | [] => none
  | r :: rest =>
    match selIdx rest date with
    | some j => some (j + 1)
    | none => if r.startDate ≤ date then some 0 else none

/-- A calendar date as produced by Go `date.Date()`. -/
structure CalDate where
  year : Nat
  month : Nat
  day : Nat
deriving DecidableEq, Repr

/-- Go `fmt.Sprintf("%02d", n)`: decimal rendering zero-padded to width 2. -/
def pad2 (n : Nat) : String :=
  if n < 10 then "0" ++ toString n else toString n

/-- Go `fmt.Sprintf("%04d", n)`: decimal rendering zero-padded to width 4. -/
def pad4 (n : Nat) : String :=
  if n < 10 then "000" ++ toString n
  else if n < 100 then "00" ++ toString n
  else if n < 1000 then "0" ++ toString n
  else toString n

/-- Go `date.Format("2006-01-02")`: zero-padded `YYYY-MM-DD`. -/
def formatDate (d : CalDate) : String :=
  pad4 d.year ++ "-" ++ pad2 d.month ++ "-" ++ pad2 d.day

/-- Go `func getRelativePath(exchange, pair, dType string, date time.Time) string`:
the canonical relative storage path
`{exchange}/{folder}/{YYYY}/{MM}/{DD}/{pair}/{exchange}_{file}_{YYYY-MM-DD}_{pair}.parquet`
where the `trade` data type uses folder `trade` and file part `trades`, and
any other type string is used verbatim for both. -/
def getRelativePath (exchange pair dType : String) (date : CalDate) : String :=
  let folderPart := if dType == "trade" then "trade" else dType
  let filePart := if dType == "trade" then "trades" else dType
  exchange ++ "/" ++ folderPart ++ "/" ++ pad4 date.year ++ "/" ++ pad2 date.month ++
    "/" ++ pad2 date.day ++ "/" ++ pair ++ "/" ++ exchange ++ "_" ++ filePart ++
    "_" ++ formatDate date ++ "_" ++ pair ++ ".parquet"

/-- Spec-side path derivation, written directly from the specification text:
`{exchange}/{typeFolder}/{YYYY}/{MM}/{DD}/{pair}/{exchange}_{typeFilePart}_{YYYY-MM-DD}_{pair}.parquet`,
"where for the `trade` data type, `typeFolder = "trade"` and
`typeFilePart = "trades"`; for any other type string, both equal the type
string itself". -/
def specPath (exchange pair dType : String) (date : CalDate) : String :=
  let typeFolder := if dType = "trade" then "trade" else dType
  let typeFilePart := if dType = "trade" then "trades" else dType
  exchange ++ "/" ++ typeFolder ++ "/" ++ pad4 date.year ++ "/" ++ pad2 date.month ++
    "/" ++ pad2 date.day ++ "/" ++ pair ++ "/" ++ exchange ++ "_" ++ typeFilePart ++
    "_" ++ pad4 date.year ++ "-" ++ pad2 date.month ++ "-" ++ pad2 date.day ++
    "_" ++ pair ++ ".parquet"

/-- Go `type Job struct { Exchange, Pair string; Date time.Time }` (the
`Index`/`Total`/`Bar` fields are display-only labels and carry no logic). -/
structure Job where
  exchange : String
  pair : String
  date : Nat
deriving DecidableEq, Repr

/-- The inclusive day range iterated by
`for !curr.After(end) { ...; curr = curr.AddDate(0, 0, 1) }`. -/
def dateRange (s e : Nat) : List Nat := List.range' s (e + 1 - s)

/-- The jobs appended for one day of the `runDayMode` expansion loop:
for each requested exchange (trimmed), if it is a key of the active table,
for each requested token (trimmed), if it is listed for that exchange,
append a `Job`. -/
def jobsForDate (activeConfig : Option Config) (exchanges tokens : List String)
    (d : Nat) : List Job :=
  match activeConfig with
  | none => []
  | some c =>
    exchanges.flatMap fun ex0 =>
      match lookupConfig c ex0.trim with
      | none => []
      | some availablePairs =>
        tokens.filterMap fun tok0 =>
          if contains availablePairs tok0.trim then
            some ⟨ex0.trim, tok0.trim, d⟩
          else none

/-- Go `runDayMode` job expansion: iterate days ascending from `start` to
`end` inclusive, resolving the availability table per day. -/
def expandJobs (rules : List ConfigRule) (exchanges tokens : List String)
    (s e : Nat) : List Job :=
  (dateRange s e).flatMap fun d =>
    jobsForDate (getConfigForDate rules d) exchanges tokens d

/-- Spec-side per-triple filter: "For each (date, exchange, token) triple:
resolve availability for `date`; if absent, no job; else, if the exchange key
exists in the table and `token` appears in the exchange's pair set (exact
string match after trimming surrounding whitespace), append a Job". -/
def expandFilter (rules : List ConfigRule) (t : Nat × String × String) : Option Job :=
  match getConfigForDate rules t.1 with
  | none => none
  | some c =>
    match lookupConfig c t.2.1.trim with
    | none => none
    | some pairs =>
      if contains pairs t.2.2.trim then some ⟨t.2.1.trim, t.2.2.trim, t.1⟩ else none

/-- Spec-side expansion: the full cross product of dates (ascending) ×
exchanges (caller order) × tokens (caller order), filtered per triple. -/
def expandSpec (rules : List ConfigRule) (exchanges tokens : List String)
    (s e : Nat) : List Job :=
  ((dateRange s e).flatMap fun d =>
      exchanges.flatMap fun ex => tokens.map fun tok => (d, ex, tok)).filterMap
    (expandFilter rules)

/-- Insertion into an ascending sorted list of strings. -/
def insertSorted (x : String) : List String → List String
  | [] => [x]
  | y :: ys => if x ≤ y then x :: y :: ys else y :: insertSorted x ys

/-- Go `sort.Strings(validPairs)`: sort ascending (insertion sort; any
correct sort of strings produces the same ascending list). -/
def sortStrings (l : List String) : List String := l.foldr insertSorted []

/-- The filtered availability table `check` mode builds for one day
(`runCheckMode` loop body): iterate the active table's entries; drop
exchanges outside a non-empty `--exchanges` filter; keep only pairs inside
a non-empty `--tokens` filter; sort surviving pairs ascending; keep an
exchange only if at least one pair survives.  Go iterates the map in
unspecified order; the association-list order stands in for it, and every
later comparison (`isDataEqual`, emptiness) is order-insensitive. -/
def filterDay (activeConfig : Option Config) (exchanges tokens : List String) : Config :=
  match activeConfig with
  | none => []
  | some c =>
    c.filterMap fun ep =>
      if exchanges.length > 0 && !(contains exchanges ep.1) then none
      else
        let validPairs := sortStrings (ep.2.filter fun pair =>
          !(tokens.length > 0 && !(contains tokens pair)))
        if validPairs.length > 0 then some (ep.1, validPairs) else none

/-- The filtered table for day `d` (`hasData` in Go is its non-emptiness). -/
def dayTable (rules : List ConfigRule) (exchanges tokens : List String)
    (d : Nat) : Config :=
  filterDay (getConfigForDate rules d) exchanges tokens

/-- Go `func isDataEqual(a, b map[string][]string) bool`: equal sizes and
every key of `a` maps in `b` to an identical pair list. -/
def isDataEqual (a b : Config) : Bool :=
  a.length == b.length &&
  a.all fun kv =>
    match lookupConfig b kv.1 with
    | none => false
    | some vB => kv.2 == vB

/-- Go `type AvailabilityBlock struct { Start, End time.Time; Data map[string][]string }`
(`endD` stands for the `End` field). -/
structure AvailabilityBlock where
  start : Nat
  endD : Nat
  data : Config
deriving DecidableEq, Repr

/-- One day of the `runCheckMode` block-merge loop: with no open block,
open one when the day has data; with an open block, extend it when the
day's table is `isDataEqual` to its data, otherwise close it and open a
fresh block when the day has data. -/
def checkStep (rules : List ConfigRule) (exchanges tokens : List String)
    (st : List AvailabilityBlock × Option AvailabilityBlock) (d : Nat) :
    List AvailabilityBlock × Option AvailabilityBlock :=
  let dayData := dayTable rules exchanges tokens d
  match st.2 with
  | none => if dayData.isEmpty then (st.1, none) else (st.1, some ⟨d, d, dayData⟩)
  | some cb =>
    if isDataEqual cb.data dayData then (st.1, some ⟨cb.start, d, cb.data⟩)
    else (st.1 ++ [cb], if dayData.isEmpty then none else some ⟨d, d, dayData⟩)

/-- Go `runCheckMode`: fold the block-merge step over the inclusive day
range, then close any still-open block. -/
def runCheckMode (rules : List ConfigRule) (exchanges tokens : List String)
    (s e : Nat) : List AvailabilityBlock :=
  let st := (dateRange s e).foldl (checkStep rules exchanges tokens) ([], none)
  st.1 ++ st.2.toList

/-- Per-job outcome (`DownloadOutcome`): `Skipped` when the destination
file already exists, `Failed` on link-resolution or transport error,
`Success` when bytes were written. -/
inductive Outcome where
  | success
  | failed
  | skipped
deriving DecidableEq, Repr

/-- A record of the collaborator calls a job made. -/
inductive Call where
  | fetchLink (relPath : String)
  | stream (url : String) (path : String)
deriving DecidableEq, Repr

/-- The decoded link-resolution response the Go client inspects: HTTP
status, the `download_url` and `file_size` fields of a 200 body, whether
that body decodes as JSON, and the `message` field of an error body.  Go's
decoder leaves `Message` empty both when the field is absent and when the
error body fails to decode, so "message present" is `message ≠ ""`. -/
structure ApiResponse where
  status : Nat
  downloadUrl : String
  fileSize : Int
  bodyValid : Bool
  message : String
deriving DecidableEq, Repr

/-- Go `func fetchDownloadLink(apiKey, relPath string) (string, int64, error)`,
response-classification part: on a non-200 status return the body's
`message` if non-empty, else "file not found on server" for 404, else
"api status N"; on 200 return the URL and size (or an invalid-json error,
whose Go text carries the decoder detail elided here). -/
def fetchDownloadLink (resp : ApiResponse) : Except String (String × Int) :=
  if resp.status != 200 then
    if resp.message != "" then .error resp.message
    else if resp.status == 404 then .error "file not found on server"
    else .error ("api status " ++ toString resp.status)
  else
    if resp.bodyValid then .ok (resp.downloadUrl, resp.fileSize)
    else .error "invalid json"

/-- Ambient configuration and external collaborators of the download
executor: the `--type` flag, the API key, the calendar rendering of day
indices, the local existence check (`os.Stat`), the link-resolution
service (keyed by API key and relative path) and the byte transport
(`downloadStream`, keyed by URL and destination path). -/
structure Env where
  dataType : String
  apiKey : String
  calendar : Nat → CalDate
  fileExists : String → Bool
  fetchLink : String → String → Except String (String × Int)
  stream : String → String → Except String Unit

/-- The relative path `processJob` derives for a job. -/
def jobRelPath (env : Env) (j : Job) : String :=
  getRelativePath j.exchange j.pair env.dataType (env.calendar j.date)

/-- `filepath.Join("downloads", relPath)` for a job's destination. -/
def jobFullPath (env : Env) (j : Job) : String :=
  "downloads/" ++ jobRelPath env j

/-- Go `func processJob(job Job, success, fail, skip *int64, mu *sync.Mutex)`:
unconditional existence check first (Skipped, no collaborator calls);
else fetch the download link (error → Failed); else stream to the
destination (error → Failed, else Success).  Returns the outcome and the
collaborator calls made, in order. -/
def processJob (env : Env) (job : Job) : Outcome × List Call :=
  let relPath := jobRelPath env job
  let fullPath := "downloads/" ++ relPath
  if env.fileExists fullPath then (.skipped, [])
  else
    match env.fetchLink env.apiKey relPath with
    | .error _ => (.failed, [.fetchLink relPath])
    | .ok (url, _) =>
      match env.stream url fullPath with
      | .error _ => (.failed, [.fetchLink relPath, .stream url fullPath])
      | .ok _ => (.success, [.fetchLink relPath, .stream url fullPath])

/-- The outcome a job's counter increment records. -/
def outcomeOf (env : Env) (job : Job) : Outcome := (processJob env job).1

/-- The three shared outcome counters of `runDownloads`. -/
structure Summary where
  success : Nat
  failed : Nat
  skipped : Nat
deriving DecidableEq, Repr

/-- Counter values after a sequence of mutex-guarded increments. -/
def countsOf (events : List Outcome) : Summary :=
  ⟨events.count .success, events.count .failed, events.count .skipped⟩

/-- State of the `runDownloads` worker pool: the shared buffered job
channel (filled with all jobs before workers consume, dequeued FIFO), the
job each worker currently holds, and the sequence of counter increments
performed so far (each job contributes exactly one, under the mutex). -/
structure PoolState where
  queue : List Job
  working : List (Option Job)
  events : List Outcome
deriving DecidableEq, Repr

/-- One scheduler step of the pool: worker `i` either finishes its held
job (appending its outcome event) or dequeues the next job; a worker id
outside the pool, or an idle worker facing an empty channel, does
nothing. -/
def poolStep (env : Env) (st : PoolState) (i : Nat) : PoolState :=
  match st.working[i]? with
  | none => st
  | some (some j) =>
    { st with working := st.working.set i none,
              events := st.events ++ [outcomeOf env j] }
  | some none =>
    match st.queue with
    | [] => st
    | j :: rest => { st with queue := rest, working := st.working.set i (some j) }

/-- Initial pool state: all jobs enqueued, `w` idle workers, no events. -/
def initState (w : Nat) (jobs : List Job) : PoolState :=
  ⟨jobs, List.replicate w none, []⟩

/-- Go `runDownloads`: `parallelism` workers drain the shared channel; a
run is determined by the scheduler's interleaving `sched` of worker
steps. -/
def runPool (env : Env) (w : Nat) (jobs : List Job) (sched : List Nat) : PoolState :=
  sched.foldl (poolStep env) (initState w jobs)

/-- The run has finished: channel drained and every worker idle
(`wg.Wait()` has returned). -/
def isComplete (st : PoolState) : Prop := st.queue = [] ∧ ∀ x ∈ st.working, x = none

/-- The final summary table printed by `runDownloads`. -/
def summaryOf (st : PoolState) : Summary := countsOf st.events

/-- The outcomes still owed by a pool state: events recorded so far, plus
the outcomes of held jobs, plus the outcomes of queued jobs. -/
def residual (env : Env) (st : PoolState) : List Outcome :=
  st.events ++ (st.working.filterMap id).map (outcomeOf env) ++
    st.queue.map (outcomeOf env)

/-- Result of the `run`/`runDayMode` day-mode entry: `warnNoMatches` is the
"No matching files found" warning followed by a plain return (process exit
code 0), reached exactly when the expansion is empty; otherwise the job
list proceeds to the download executor. -/
inductive RunOutcome where
  | warnNoMatches
  | runJobs (jobs : List Job)
deriving DecidableEq, Repr

/-- Go `runDayMode` control flow around the expansion (the confirmation
prompt and the executor itself are behind the non-empty branch). -/
def runDayMode (rules : List ConfigRule) (exchanges tokens : List String)
    (s e : Nat) : RunOutcome :=
  let jobs := expandJobs rules exchanges tokens s e
  if jobs.isEmpty then .warnNoMatches else .runJobs jobs

/-- A concrete collaborator environment for witness evaluations: no file
exists locally, link resolution and streaming always succeed. -/
def envTest : Env where
  dataType := "trade"
  apiKey := ""
  calendar := fun n => ⟨2025, 11, n⟩
  fileExists := fun _ => false
  fetchLink := fun _ _ => .ok ("url", 10)
  stream := fun _ _ => .ok ()

/-- A concrete environment in which every destination file already
exists. -/
def envAllExist : Env where
  dataType := "trade"
  apiKey := ""
  calendar := fun n => ⟨2025, 11, n⟩
  fileExists := fun _ => true
  fetchLink := fun _ _ => .ok ("url", 10)
  stream := fun _ _ => .ok ()

/-- A one-job list for witness evaluations. -/
def jobsTest : List Job := [⟨"binance", "btc_usdt", 2⟩]

/-- Well-formedness of an availability block with respect to the per-day
filtered tables `D` and the range start `s`: the block's data is the
(non-empty) table of its start day, every covered day's table is
`isDataEqual` to it, and it cannot extend one day to the left. -/
structure BlockOk (D : Nat → Config) (s : Nat) (b : AvailabilityBlock) : Prop where
  lower : s ≤ b.start
  le : b.start ≤ b.endD
  data_eq : b.data = D b.start
  ne : b.data ≠ []
  run_eq : ∀ d, b.start ≤ d → d ≤ b.endD → isDataEqual b.data (D d) = true
  leftMax : b.start = s ∨ isDataEqual b.data (D (b.start - 1)) = false

/-- Invariant of the `runCheckMode` fold after processing the `k` days
`s, s+1, …, s+k-1`: closed blocks are well-formed, right-maximal and end
before the last processed day; an open block is well-formed and ends at the
last processed day; the block becomes `nil` only when the last day was
empty; processed days are covered exactly when non-empty; and blocks are
ordered and disjoint. -/
structure CheckInv (D : Nat → Config) (s k : Nat)
    (st : List AvailabilityBlock × Option AvailabilityBlock) : Prop where
  closed : ∀ b ∈ st.1, BlockOk D s b ∧ b.endD + 1 < s + k ∧
      isDataEqual b.data (D (b.endD + 1)) = false
  opened : ∀ cb, st.2 = some cb → BlockOk D s cb ∧ cb.endD + 1 = s + k
  noneEmpty : st.2 = none → 0 < k → D (s + k - 1) = []
  coverage : ∀ d, s ≤ d → d < s + k →
      (D d ≠ [] ↔ ∃ b, (b ∈ st.1 ∨ st.2 = some b) ∧ b.start ≤ d ∧ d ≤ b.endD)
  sorted : st.1.Pairwise fun b b' => b.endD < b'.start
  beforeOpen : ∀ b ∈ st.1, ∀ cb, st.2 = some cb → b.endD < cb.start

end TerminalCli

namespace TerminalCli

/-! ## Claim C1: availability resolution -/

/-- `getConfigForDate` is `none` exactly when the date precedes every rule. -/
theorem getConfigForDate_eq_none_iff (rules : List ConfigRule) (d : Nat) :
    getConfigForDate rules d = none ↔ ∀ r ∈ rules, d < r.startDate := by
  induction rules with
  | nil => simp [getConfigForDate]
  | cons r rest ih =>
    cases h : getConfigForDate rest d with
    | some c =>
      simp only [getConfigForDate, h, reduceCtorEq, false_iff]
      intro hall
      have hnone : getConfigForDate rest d = none :=
        ih.mpr fun r' hr' => hall r' (List.mem_cons_of_mem _ hr')
      rw [h] at hnone
      exact absurd hnone (by simp)
    | none =>
      have hrest := ih.mp h
      simp only [getConfigForDate, h]
      by_cases hle : r.startDate ≤ d
      · rw [if_pos hle]
        constructor
        · intro hc; exact absurd hc (by simp)
        · intro hall
          exact absurd (hall r (List.mem_cons_self r rest)) (by omega)
      · rw [if_neg hle]
        constructor
        · intro _ r' hr'
          rcases List.mem_cons.mp hr' with rfl | hmem
          · omega
          · exact hrest r' hmem
        · intro _; rfl

/-- When `getConfigForDate` returns a table, it is the table of some rule
whose effective date is at most the query date. -/
theorem getConfigForDate_some_mem (rules : List ConfigRule) (d : Nat) (c : Config)
    (h : getConfigForDate rules d = some c) :
    ∃ r ∈ rules, r.startDate ≤ d ∧ r.config = c := by
  induction rules with
  | nil => simp [getConfigForDate] at h
  | cons r rest ih =>
    cases hrest : getConfigForDate rest d with
    | some c' =>
      simp only [getConfigForDate, hrest, Option.some.injEq] at h
      obtain ⟨r', hr', hle, hcfg⟩ := ih (hrest.trans (by rw [h]))
      exact ⟨r', List.mem_cons_of_mem _ hr', hle, hcfg⟩
    | none =>
      simp only [getConfigForDate, hrest] at h
      by_cases hle : r.startDate ≤ d
      · rw [if_pos hle] at h
        exact ⟨r, List.mem_cons_self r rest, hle, by simpa using h⟩
      · rw [if_neg hle] at h
        exact absurd h (by simp)

/-- The index selected by the resolver is monotone in the query date. -/
theorem selIdx_mono (rules : List ConfigRule) (d d' : Nat) (hdd : d ≤ d')
    (i : Nat) (h : selIdx rules d = some i) :
    ∃ j, selIdx rules d' = some j ∧ i ≤ j := by
  induction rules generalizing i with
  | nil => simp [selIdx] at h
  | cons r rest ih =>
    cases hrest : selIdx rest d with
    | some k =>
      have hsel : selIdx (r :: rest) d = some (k + 1) := by simp [selIdx, hrest]
      rw [hsel] at h
      injection h with h
      obtain ⟨j, hj, hkj⟩ := ih k hrest
      exact ⟨j + 1, by simp [selIdx, hj], by omega⟩
    | none =>
      have hsel : selIdx (r :: rest) d =
          if r.startDate ≤ d then some 0 else none := by simp [selIdx, hrest]
      rw [hsel] at h
      by_cases hle : r.startDate ≤ d
      · rw [if_pos hle] at h
        injection h with h
        cases hrest' : selIdx rest d' with
        | some j =>
          exact ⟨j + 1, by simp [selIdx, hrest'], by omega⟩
        | none =>
          exact ⟨0, by simp [selIdx, hrest', if_pos (le_trans hle hdd)], by omega⟩
      · rw [if_neg hle] at h
        exact absurd h (by simp)

/-- A selected index is always a valid index into the rule list. -/
theorem selIdx_lt_length (rules : List ConfigRule) (d : Nat) (i : Nat)
    (h : selIdx rules d = some i) : i < rules.length := by
  induction rules generalizing i with
  | nil => simp [selIdx] at h
  | cons r rest ih =>
    cases hrest : selIdx rest d with
    | some k =>
      have hsel : selIdx (r :: rest) d = some (k + 1) := by simp [selIdx, hrest]
      rw [hsel] at h
      injection h with h
      have := ih k hrest
      simp only [List.length_cons]
      omega
    | none =>
      have hsel : selIdx (r :: rest) d =
          if r.startDate ≤ d then some 0 else none := by simp [selIdx, hrest]
      rw [hsel] at h
      by_cases hle : r.startDate ≤ d
      · rw [if_pos hle] at h
        injection h with h
        simp only [List.length_cons]
        omega
      · rw [if_neg hle] at h
        exact absurd h (by simp)

/-- `getConfigForDate` returns exactly the table of the rule at the selected
index. -/
theorem getConfigForDate_eq_selIdx (rules : List ConfigRule) (d : Nat) :
    getConfigForDate rules d =
      (selIdx rules d).bind fun i => (rules[i]?).map ConfigRule.config := by
  induction rules with
  | nil => simp [getConfigForDate, selIdx]
  | cons r rest ih =>
    cases hrest : selIdx rest d with
    | some k =>
      rw [hrest] at ih
      rw [Option.some_bind] at ih
      cases hg : rest[k]? with
      | some rr =>
        rw [hg] at ih
        rw [Option.map_some'] at ih
        simp [getConfigForDate, selIdx, hrest, ih, hg]
      | none =>
        have := selIdx_lt_length rest d k hrest
        rw [List.getElem?_eq_none_iff] at hg
        omega
    | none =>
      rw [hrest] at ih
      rw [Option.none_bind] at ih
      simp only [getConfigForDate, selIdx, hrest, ih]
      by_cases hle : r.startDate ≤ d
      · simp [if_pos hle]
      · simp [if_neg hle]

/-- C1.  For every rule list sorted ascending by effective date and every
query date, `getConfigForDate` returns the table of a rule with the maximum
`startDate ≤` the query date; it returns `none` when the query date precedes
every rule's effective date; and the selected rule index is monotonically
non-decreasing in the query date. -/
theorem getConfigForDate_correct (rules : List ConfigRule) (d d' : Nat)
    (hsorted : rules.Pairwise fun a b => a.startDate ≤ b.startDate)
    (hdd : d ≤ d') :
    ((∀ r ∈ rules, d < r.startDate) → getConfigForDate rules d = none) ∧
    ((∃ r ∈ rules, r.startDate ≤ d) →
      ∃ rm ∈ rules, rm.startDate ≤ d ∧
        (∀ r ∈ rules, r.startDate ≤ d → r.startDate ≤ rm.startDate) ∧
        getConfigForDate rules d = some rm.config) ∧
    (getConfigForDate rules d =
      (selIdx rules d).bind fun i => (rules[i]?).map ConfigRule.config) ∧
    (∀ i, selIdx rules d = some i → ∃ j, selIdx rules d' = some j ∧ i ≤ j) := by
  refine ⟨(getConfigForDate_eq_none_iff rules d).mpr, ?_,
    getConfigForDate_eq_selIdx rules d, fun i h => selIdx_mono rules d d' hdd i h⟩
  intro hex
  induction rules with
  | nil => simp at hex
  | cons r rest ih =>
    cases hc : getConfigForDate rest d with
    | some c =>
      obtain ⟨r', hr', hle', _⟩ := getConfigForDate_some_mem rest d c hc
      obtain ⟨rm, hrm, hrmle, hrmmax, hrmcfg⟩ :=
        ih (List.Pairwise.sublist (List.sublist_cons_self r rest) hsorted) ⟨r', hr', hle'⟩
      refine ⟨rm, List.mem_cons_of_mem _ hrm, hrmle, ?_, ?_⟩
      · intro rr hrr hrrle
        rcases List.mem_cons.mp hrr with rfl | hmem
        · exact le_trans (List.rel_of_pairwise_cons hsorted hrm) (le_refl _)
        · exact hrmmax rr hmem hrrle
      · simp [getConfigForDate, hc, hrmcfg.symm.trans hc]
    | none =>
      have hnone : ∀ r' ∈ rest, d < r'.startDate := (getConfigForDate_eq_none_iff rest d).mp hc
      obtain ⟨r0, hr0, hr0le⟩ := hex
      have hr0r : r0 = r := by
        rcases List.mem_cons.mp hr0 with rfl | hmem
        · rfl
        · exact absurd hr0le (by have := hnone r0 hmem; omega)
      subst hr0r
      refine ⟨r0, List.mem_cons_self r0 rest, hr0le, ?_, ?_⟩
      · intro rr hrr hrrle
        rcases List.mem_cons.mp hrr with rfl | hmem
        · exact le_refl _
        · exact absurd hrrle (by have := hnone rr hmem; omega)
      · simp [getConfigForDate, hc, if_pos hr0le]

/-- Witness for C1 on a concrete two-rule list and dates. -/
theorem getConfigForDate_correct_witness :
    let rules : List ConfigRule :=
      [⟨5, [("binance", ["btc_usdt"])]⟩, ⟨10, [("binance", ["btc_usdt", "eth_usdc"])]⟩]
    ((∀ r ∈ rules, 3 < r.startDate) → getConfigForDate rules 3 = none) ∧
    ((∃ r ∈ rules, r.startDate ≤ 3) →
      ∃ rm ∈ rules, rm.startDate ≤ 3 ∧
        (∀ r ∈ rules, r.startDate ≤ 3 → r.startDate ≤ rm.startDate) ∧
        getConfigForDate rules 3 = some rm.config) ∧
    (getConfigForDate rules 3 =
      (selIdx rules 3).bind fun i => (rules[i]?).map ConfigRule.config) ∧
    (∀ i, selIdx rules 3 = some i → ∃ j, selIdx rules 12 = some j ∧ i ≤ j) :=
  getConfigForDate_correct _ 3 12 (by simp) (by omega)

end TerminalCli

namespace TerminalCli

/-! ## Claim C4: path derivation -/

/-- C4.  `getRelativePath` produces exactly the specified template
`{exchange}/{typeFolder}/{YYYY}/{MM}/{DD}/{pair}/{exchange}_{typeFilePart}_{YYYY-MM-DD}_{pair}.parquet`
with the `trade`/`trades` special case, and the concrete example
(binance, btc_usdt, trade, 2025-11-02) yields the expected path. -/
theorem getRelativePath_correct :
    (∀ exchange pair dType date,
      getRelativePath exchange pair dType date = specPath exchange pair dType date) ∧
    getRelativePath "binance" "btc_usdt" "trade" ⟨2025, 11, 2⟩ =
      "binance/trade/2025/11/02/btc_usdt/binance_trades_2025-11-02_btc_usdt.parquet" := by
  constructor
  · intro exchange pair dType date
    by_cases h : dType = "trade" <;>
      simp [getRelativePath, specPath, formatDate, h, String.append_assoc]
  · rfl

end TerminalCli

namespace TerminalCli

/-! ## Claim C2: job expansion -/

/-- One day of the expansion agrees with the spec-side filtered cross
product of that day's (exchange, token) pairs. -/
theorem jobsForDate_eq_filterMap (rules : List ConfigRule)
    (exchanges tokens : List String) (d : Nat) :
    jobsForDate (getConfigForDate rules d) exchanges tokens d =
      (exchanges.flatMap fun ex => tokens.map fun tok => (d, ex, tok)).filterMap
        (expandFilter rules) := by
  rw [List.filterMap_flatMap]
  cases hc : getConfigForDate rules d with
  | none =>
    simp only [jobsForDate]
    symm
    rw [List.flatMap_eq_nil_iff]
    intro ex _
    rw [List.filterMap_map, List.filterMap_eq_nil_iff]
    intro tok _
    simp [Function.comp, expandFilter, hc]
  | some c =>
    simp only [jobsForDate]
    congr 1
    funext ex0
    rw [List.filterMap_map]
    cases hl : lookupConfig c ex0.trim with
    | none =>
      symm
      rw [List.filterMap_eq_nil_iff]
      intro tok _
      simp [Function.comp, expandFilter, hc, hl]
    | some pairs =>
      apply List.filterMap_congr
      intro tok0 _
      simp [Function.comp, expandFilter, hc, hl]

/-- Every job produced for day `d` carries date `d`. -/
theorem jobsForDate_date (cfg : Option Config) (exchanges tokens : List String)
    (d : Nat) (j : Job) (hj : j ∈ jobsForDate cfg exchanges tokens d) :
    j.date = d := by
  cases cfg with
  | none => simp [jobsForDate] at hj
  | some c =>
    simp only [jobsForDate, List.mem_flatMap] at hj
    obtain ⟨ex0, _, hmem⟩ := hj
    cases hl : lookupConfig c ex0.trim with
    | none => rw [hl] at hmem; simp at hmem
    | some pairs =>
      rw [hl] at hmem
      simp only [List.mem_filterMap] at hmem
      obtain ⟨tok0, _, htok⟩ := hmem
      by_cases hcont : contains pairs tok0.trim
      · rw [if_pos hcont] at htok
        cases htok
        rfl
      · rw [if_neg hcont] at htok
        exact absurd htok (by simp)

/-- The dates of jobs expanded over a strictly increasing day list are
non-decreasing. -/
theorem pairwise_date_flatMap (rules : List ConfigRule)
    (exchanges tokens : List String) (l : List Nat) (hl : l.Pairwise (· < ·)) :
    (l.flatMap fun d => jobsForDate (getConfigForDate rules d) exchanges tokens d).Pairwise
      (fun a b => a.date ≤ b.date) := by
  induction l with
  | nil => simp
  | cons d ds ih =>
    rw [List.flatMap_cons, List.pairwise_append]
    obtain ⟨hd, hds⟩ := List.pairwise_cons.mp hl
    refine ⟨?_, ih hds, ?_⟩
    · apply List.pairwise_of_forall_mem_list
      intro a ha b hb
      rw [jobsForDate_date _ _ _ _ _ ha, jobsForDate_date _ _ _ _ _ hb]
    · intro a ha b hb
      rw [List.mem_flatMap] at hb
      obtain ⟨d', hd', hb⟩ := hb
      have h1 := jobsForDate_date _ _ _ _ _ ha
      have h2 := jobsForDate_date _ _ _ _ _ hb
      have h3 := hd d' hd'
      omega

/-- C2.  For `start ≤ end`, the job expansion emits exactly the jobs of the
spec-side filtered cross product — one job per (date, exchange-position,
token-position) triple whose date is in range, whose resolved table is
present, whose trimmed exchange is a key of that table and whose trimmed
token is listed for that key — ordered by date ascending, then exchanges in
caller order, then tokens in caller order, with no deduplication; in
particular the output dates are non-decreasing. -/
theorem expandJobs_correct (rules : List ConfigRule)
    (exchanges tokens : List String) (s e : Nat) (hse : s ≤ e) :
    expandJobs rules exchanges tokens s e = expandSpec rules exchanges tokens s e ∧
    (expandJobs rules exchanges tokens s e).Pairwise (fun a b => a.date ≤ b.date) := by
  constructor
  · unfold expandJobs expandSpec
    rw [List.filterMap_flatMap]
    congr 1
    funext d
    exact jobsForDate_eq_filterMap rules exchanges tokens d
  · exact pairwise_date_flatMap rules exchanges tokens _ (List.pairwise_lt_range' s (e + 1 - s))

/-- Witness for C2 on the spec's two-rule scenario. -/
theorem expandJobs_correct_witness :
    let rules : List ConfigRule :=
      [⟨1, [("binance", ["btc_usdt"])]⟩, ⟨4, [("binance", ["btc_usdt", "eth_usdc"])]⟩]
    expandJobs rules ["binance"] ["eth_usdc"] 2 5 =
      expandSpec rules ["binance"] ["eth_usdc"] 2 5 ∧
    (expandJobs rules ["binance"] ["eth_usdc"] 2 5).Pairwise
      (fun a b => a.date ≤ b.date) :=
  expandJobs_correct _ ["binance"] ["eth_usdc"] 2 5 (by omega)

end TerminalCli

namespace TerminalCli

/-! ## Worker-pool bookkeeping (claims C5, C6, C9, C10) -/

/-- Completing the job held at slot `i` removes exactly that job from the
in-flight multiset. -/
theorem filterMap_id_set_none {α : Type _} (l : List (Option α)) (i : Nat) (a : α)
    (h : l[i]? = some (some a)) :
    List.Perm (l.filterMap id) (a :: (l.set i none).filterMap id) := by
  induction l generalizing i with
  | nil => simp at h
  | cons x xs ih =>
    cases i with
    | zero =>
      simp only [List.getElem?_cons_zero, Option.some.injEq] at h
      subst h
      simp [List.filterMap_cons]
    | succ i =>
      simp only [List.getElem?_cons_succ] at h
      cases x with
      | none => simpa [List.filterMap_cons] using ih i h
      | some b =>
        simp only [List.filterMap_cons, id, List.set_cons_succ]
        exact ((ih i h).cons b).trans (List.Perm.swap a b _)

/-- Handing the queued job `a` to the idle worker at slot `i` adds exactly
that job to the in-flight multiset. -/
theorem filterMap_id_set_some {α : Type _} (l : List (Option α)) (i : Nat) (a : α)
    (h : l[i]? = some none) :
    List.Perm ((l.set i (some a)).filterMap id) (a :: l.filterMap id) := by
  induction l generalizing i with
  | nil => simp at h
  | cons x xs ih =>
    cases i with
    | zero =>
      simp only [List.getElem?_cons_zero, Option.some.injEq] at h
      subst h
      simp [List.filterMap_cons]
    | succ i =>
      simp only [List.getElem?_cons_succ] at h
      cases x with
      | none => simpa [List.filterMap_cons] using ih i h
      | some b =>
        simp only [List.filterMap_cons, id, List.set_cons_succ]
        exact ((ih i h).cons b).trans (List.Perm.swap a b _)

/-- Rearrangement: recording an owed outcome at the end of the event log. -/
theorem perm_record {α : Type _} (E A B q : List α) (o : α)
    (h : List.Perm B (o :: A)) :
    List.Perm (E ++ [o] ++ A ++ q) (E ++ B ++ q) := by
  have heq : E ++ [o] ++ A = E ++ (o :: A) := by
    rw [List.append_assoc, List.singleton_append]
  rw [heq]
  exact List.Perm.append_right q (List.Perm.append_left E h.symm)

/-- Rearrangement: moving a queued outcome into the in-flight set. -/
theorem perm_take {α : Type _} (E A' B R : List α) (o : α)
    (h : List.Perm A' (o :: B)) :
    List.Perm (E ++ A' ++ R) (E ++ B ++ (o :: R)) := by
  refine List.Perm.trans (List.Perm.append_right R (List.Perm.append_left E h)) ?_
  have h1 : E ++ (o :: B) ++ R = E ++ (o :: (B ++ R)) := by
    rw [List.append_assoc]
    rfl
  have h2 : E ++ B ++ (o :: R) = E ++ (B ++ (o :: R)) := by
    rw [List.append_assoc]
  rw [h1, h2]
  exact List.Perm.append_left E List.perm_middle.symm

/-- Each pool step preserves the multiset of outcomes owed. -/
theorem residual_poolStep (env : Env) (st : PoolState) (i : Nat) :
    List.Perm (residual env (poolStep env st i)) (residual env st) := by
  cases hw : st.working[i]? with
  | none => simp [poolStep, hw]
  | some o =>
    cases o with
    | some j =>
      have hstep : poolStep env st i =
          { st with working := st.working.set i none,
                    events := st.events ++ [outcomeOf env j] } := by
        simp [poolStep, hw]
      rw [hstep]
      simp only [residual]
      exact perm_record st.events
        (((st.working.set i none).filterMap id).map (outcomeOf env))
        ((st.working.filterMap id).map (outcomeOf env))
        (st.queue.map (outcomeOf env)) (outcomeOf env j)
        (by simpa using (filterMap_id_set_none st.working i j hw).map (outcomeOf env))
    | none =>
      cases hq : st.queue with
      | nil =>
        have hstep : poolStep env st i = st := by simp [poolStep, hw, hq]
        rw [hstep]
      | cons j rest =>
        have hstep : poolStep env st i =
            { st with queue := rest, working := st.working.set i (some j) } := by
          simp [poolStep, hw, hq]
        rw [hstep]
        simp only [residual, hq]
        exact perm_take st.events
          (((st.working.set i (some j)).filterMap id).map (outcomeOf env))
          ((st.working.filterMap id).map (outcomeOf env))
          (rest.map (outcomeOf env)) (outcomeOf env j)
          (by simpa using (filterMap_id_set_some st.working i j hw).map (outcomeOf env))

/-- Along every schedule, the outcomes owed stay a permutation of the
outcomes of all jobs. -/
theorem residual_runPool (env : Env) (w : Nat) (jobs : List Job) (sched : List Nat) :
    List.Perm (residual env (runPool env w jobs sched)) (jobs.map (outcomeOf env)) := by
  have hrepl : (List.replicate w none : List (Option Job)).filterMap id = [] := by
    induction w with
    | zero => rfl
    | succ n ih => simpa [List.replicate_succ, List.filterMap_cons] using ih
  have base : residual env (initState w jobs) = jobs.map (outcomeOf env) := by
    simp [residual, initState, hrepl]
  suffices h : ∀ (l : List Nat) (st : PoolState),
      List.Perm (residual env st) (jobs.map (outcomeOf env)) →
      List.Perm (residual env (l.foldl (poolStep env) st)) (jobs.map (outcomeOf env)) by
    exact h sched _ (by rw [base])
  intro l
  induction l with
  | nil => intro st h; exact h
  | cons i is ih =>
    intro st h
    exact ih _ ((residual_poolStep env st i).trans h)

/-- Events are only ever appended by a pool step. -/
theorem events_poolStep (env : Env) (st : PoolState) (i : Nat) :
    ∃ t, (poolStep env st i).events = st.events ++ t := by
  cases hw : st.working[i]? with
  | none => exact ⟨[], by simp [poolStep, hw]⟩
  | some o =>
    cases o with
    | some j => exact ⟨[outcomeOf env j], by simp [poolStep, hw]⟩
    | none =>
      cases hq : st.queue with
      | nil => exact ⟨[], by simp [poolStep, hw, hq]⟩
      | cons j rest => exact ⟨[], by simp [poolStep, hw, hq]⟩

/-- Events are only ever appended along a schedule. -/
theorem events_foldl (env : Env) (l : List Nat) (st : PoolState) :
    ∃ t, (l.foldl (poolStep env) st).events = st.events ++ t := by
  induction l generalizing st with
  | nil => exact ⟨[], by simp⟩
  | cons i is ih =>
    obtain ⟨t₁, ht₁⟩ := events_poolStep env st i
    obtain ⟨t₂, ht₂⟩ := ih (poolStep env st i)
    exact ⟨t₁ ++ t₂, by rw [List.foldl_cons, ht₂, ht₁, List.append_assoc]⟩

/-- The three counters sum to the number of increments performed. -/
theorem countsOf_sum (l : List Outcome) :
    (countsOf l).success + (countsOf l).failed + (countsOf l).skipped = l.length := by
  induction l with
  | nil => simp [countsOf]
  | cons o rest ih =>
    cases o <;> simp [countsOf, List.count_cons] at ih ⊢ <;> omega

/-- The counters depend only on the multiset of increments. -/
theorem countsOf_perm {l₁ l₂ : List Outcome} (h : List.Perm l₁ l₂) :
    countsOf l₁ = countsOf l₂ := by
  simp [countsOf, h.count_eq]

/-- On any completed run the summary is the outcome counts of all jobs. -/
theorem summary_complete (env : Env) (w : Nat) (jobs : List Job) (sched : List Nat)
    (h : isComplete (runPool env w jobs sched)) :
    summaryOf (runPool env w jobs sched) = countsOf (jobs.map (outcomeOf env)) := by
  obtain ⟨hq, hwk⟩ := h
  have hperm := residual_runPool env w jobs sched
  have hfm : ((runPool env w jobs sched).working.filterMap id) = [] := by
    rw [List.filterMap_eq_nil_iff]
    intro x hx
    rw [hwk x hx]
    rfl
  rw [residual, hq, hfm] at hperm
  simp only [List.map_nil, List.append_nil] at hperm
  exact countsOf_perm hperm

/-- A single worker that repeatedly takes and completes drains the queue. -/
theorem run_seq (env : Env) (w : Nat) (hw : 1 ≤ w) (queue : List Job) :
    ∀ evts, (List.replicate (2 * queue.length) 0).foldl (poolStep env)
        ⟨queue, List.replicate w none, evts⟩ =
      ⟨[], List.replicate w none, evts ++ queue.map (outcomeOf env)⟩ := by
  obtain ⟨w', rfl⟩ : ∃ w', w = w' + 1 := ⟨w - 1, by omega⟩
  induction queue with
  | nil => intro evts; simp
  | cons j rest ih =>
    intro evts
    have hrep : List.replicate (2 * (j :: rest).length) (0 : Nat) =
        0 :: 0 :: List.replicate (2 * rest.length) 0 := by
      have hlen : 2 * (j :: rest).length = 2 * rest.length + 1 + 1 := by
        simp [List.length_cons]
        omega
      rw [hlen, List.replicate_succ, List.replicate_succ]
    have hs1 : poolStep env ⟨j :: rest, List.replicate (w' + 1) none, evts⟩ 0 =
        ⟨rest, some j :: List.replicate w' none, evts⟩ := by
      simp [poolStep, List.replicate_succ]
    have hs2 : poolStep env ⟨rest, some j :: List.replicate w' none, evts⟩ 0 =
        ⟨rest, List.replicate (w' + 1) none, evts ++ [outcomeOf env j]⟩ := by
      simp [poolStep, List.replicate_succ]
    rw [hrep, List.foldl_cons, List.foldl_cons, hs1, hs2, ih (evts ++ [outcomeOf env j])]
    simp

end TerminalCli

namespace TerminalCli

/-! ## Claim C5: existence check and idempotence -/

/-- If the destination file already exists, the job is recorded Skipped
with no collaborator calls at all. -/
theorem processJob_skip (env : Env) (job : Job)
    (h : env.fileExists (jobFullPath env job) = true) :
    processJob env job = (Outcome.skipped, []) := by
  have h' : env.fileExists ("downloads/" ++ jobRelPath env job) = true := h
  simp [processJob, h']

/-- Counters after `n` skips. -/
theorem countsOf_replicate_skipped (n : Nat) :
    countsOf (List.replicate n Outcome.skipped) =
      { success := 0, failed := 0, skipped := n } := by
  induction n with
  | zero => rfl
  | succ n ih =>
    simp only [List.replicate_succ, countsOf, List.count_cons, Summary.mk.injEq] at ih ⊢
    refine ⟨?_, ?_, ?_⟩ <;> simp_all

/-- C5.  A job whose derived destination file exists is Skipped before any
link-resolution or transport call, and a completed run over a directory
already containing every target file yields skipped = total with zero
successes and failures. -/
theorem downloadExecutor_skip_idempotent (env : Env) :
    (∀ job, env.fileExists (jobFullPath env job) = true →
      processJob env job = (Outcome.skipped, [])) ∧
    (∀ jobs : List Job, (∀ j ∈ jobs, env.fileExists (jobFullPath env j) = true) →
      ∀ w sched, isComplete (runPool env w jobs sched) →
        summaryOf (runPool env w jobs sched) =
          { success := 0, failed := 0, skipped := jobs.length }) := by
  refine ⟨fun job h => processJob_skip env job h, ?_⟩
  intro jobs hall w sched hc
  rw [summary_complete env w jobs sched hc]
  have hmap : jobs.map (outcomeOf env) = List.replicate jobs.length Outcome.skipped := by
    rw [List.eq_replicate_iff]
    refine ⟨by simp, ?_⟩
    intro b hb
    rw [List.mem_map] at hb
    obtain ⟨j, hj, rfl⟩ := hb
    rw [outcomeOf, processJob_skip env j (hall j hj)]
  rw [hmap, countsOf_replicate_skipped]

/-- Witness for C5: a concrete all-files-exist environment, one job,
one worker, a draining schedule. -/
theorem downloadExecutor_skip_idempotent_witness :
    processJob envAllExist ⟨"binance", "btc_usdt", 2⟩ = (Outcome.skipped, []) ∧
    summaryOf (runPool envAllExist 1 jobsTest [0, 0]) =
      { success := 0, failed := 0, skipped := jobsTest.length } :=
  ⟨(downloadExecutor_skip_idempotent envAllExist).1 ⟨"binance", "btc_usdt", 2⟩ rfl,
   (downloadExecutor_skip_idempotent envAllExist).2 jobsTest (fun j _ => rfl) 1 [0, 0]
     ⟨rfl, by decide⟩⟩

end TerminalCli

namespace TerminalCli

/-! ## Claim C6: counter invariant -/

/-- C6.  Along every schedule the counters are non-decreasing and sum to
at most the job count; on completion they sum to exactly the job count;
and with at least one worker a completing schedule exists. -/
theorem runDownloads_counter_invariant (env : Env) (w : Nat) (jobs : List Job) :
    (∀ sched, (summaryOf (runPool env w jobs sched)).success +
        (summaryOf (runPool env w jobs sched)).failed +
        (summaryOf (runPool env w jobs sched)).skipped ≤ jobs.length) ∧
    (∀ sched extra,
      (summaryOf (runPool env w jobs sched)).success ≤
          (summaryOf (runPool env w jobs (sched ++ extra))).success ∧
      (summaryOf (runPool env w jobs sched)).failed ≤
          (summaryOf (runPool env w jobs (sched ++ extra))).failed ∧
      (summaryOf (runPool env w jobs sched)).skipped ≤
          (summaryOf (runPool env w jobs (sched ++ extra))).skipped) ∧
    (∀ sched, isComplete (runPool env w jobs sched) →
      (summaryOf (runPool env w jobs sched)).success +
        (summaryOf (runPool env w jobs sched)).failed +
        (summaryOf (runPool env w jobs sched)).skipped = jobs.length) ∧
    (1 ≤ w → ∃ sched, isComplete (runPool env w jobs sched)) := by
  refine ⟨?_, ?_, ?_, ?_⟩
  · intro sched
    have hsum := countsOf_sum (runPool env w jobs sched).events
    have hlen := (residual_runPool env w jobs sched).length_eq
    simp only [residual, List.length_append, List.length_map] at hlen
    show (countsOf (runPool env w jobs sched).events).success +
        (countsOf (runPool env w jobs sched).events).failed +
        (countsOf (runPool env w jobs sched).events).skipped ≤ jobs.length
    omega
  · intro sched extra
    have hsplit : runPool env w jobs (sched ++ extra) =
        extra.foldl (poolStep env) (runPool env w jobs sched) := by
      rw [runPool, runPool, List.foldl_append]
    obtain ⟨t, ht⟩ := events_foldl env extra (runPool env w jobs sched)
    rw [hsplit] at *
    refine ⟨?_, ?_, ?_⟩ <;>
      simp [summaryOf, countsOf, ht, List.count_append]
  · intro sched hc
    have h1 := summary_complete env w jobs sched hc
    have h2 := countsOf_sum (jobs.map (outcomeOf env))
    rw [h1]
    simpa using h2
  · intro hw
    refine ⟨List.replicate (2 * jobs.length) 0, ?_⟩
    rw [show runPool env w jobs (List.replicate (2 * jobs.length) 0) =
        ⟨[], List.replicate w none, [] ++ jobs.map (outcomeOf env)⟩ from
      run_seq env w hw jobs []]
    exact ⟨rfl, fun x hx => List.eq_of_mem_replicate hx⟩

/-- Witness for C6 at a concrete environment, pool size and job list. -/
theorem runDownloads_counter_invariant_witness :
    (∀ sched, (summaryOf (runPool envTest 1 jobsTest sched)).success +
        (summaryOf (runPool envTest 1 jobsTest sched)).failed +
        (summaryOf (runPool envTest 1 jobsTest sched)).skipped ≤ jobsTest.length) ∧
    (∀ sched extra,
      (summaryOf (runPool envTest 1 jobsTest sched)).success ≤
          (summaryOf (runPool envTest 1 jobsTest (sched ++ extra))).success ∧
      (summaryOf (runPool envTest 1 jobsTest sched)).failed ≤
          (summaryOf (runPool envTest 1 jobsTest (sched ++ extra))).failed ∧
      (summaryOf (runPool envTest 1 jobsTest sched)).skipped ≤
          (summaryOf (runPool envTest 1 jobsTest (sched ++ extra))).skipped) ∧
    (∀ sched, isComplete (runPool envTest 1 jobsTest sched) →
      (summaryOf (runPool envTest 1 jobsTest sched)).success +
        (summaryOf (runPool envTest 1 jobsTest sched)).failed +
        (summaryOf (runPool envTest 1 jobsTest sched)).skipped = jobsTest.length) ∧
    (1 ≤ 1 → ∃ sched, isComplete (runPool envTest 1 jobsTest sched)) :=
  runDownloads_counter_invariant envTest 1 jobsTest

end TerminalCli

namespace TerminalCli

/-! ## Claim C9: pool size does not change final counters -/

/-- C9.  For the same job list and collaborators, any completed run with
one worker has exactly the final counters of any completed run with ten
workers — both equal the outcome counts of the job list. -/
theorem concurrencyOne_eq_concurrencyTen (env : Env) (jobs : List Job)
    (schedOne schedTen : List Nat)
    (h1 : isComplete (runPool env 1 jobs schedOne))
    (h10 : isComplete (runPool env 10 jobs schedTen)) :
    summaryOf (runPool env 1 jobs schedOne) =
      summaryOf (runPool env 10 jobs schedTen) ∧
    summaryOf (runPool env 1 jobs schedOne) =
      countsOf (jobs.map (outcomeOf env)) := by
  have e1 := summary_complete env 1 jobs schedOne h1
  have e10 := summary_complete env 10 jobs schedTen h10
  exact ⟨e1.trans e10.symm, e1⟩

/-- Witness for C9: one concrete job, draining schedules for pool sizes
one and ten. -/
theorem concurrencyOne_eq_concurrencyTen_witness :
    summaryOf (runPool envTest 1 jobsTest [0, 0]) =
      summaryOf (runPool envTest 10 jobsTest [2, 2]) ∧
    summaryOf (runPool envTest 1 jobsTest [0, 0]) =
      countsOf (jobsTest.map (outcomeOf envTest)) :=
  concurrencyOne_eq_concurrencyTen envTest jobsTest [0, 0] [2, 2]
    ⟨rfl, by decide⟩ ⟨rfl, by decide⟩

end TerminalCli

namespace TerminalCli

/-! ## Claim C10: zero workers -/

/-- C10.  With a non-positive pool size and a non-empty job list the pool
performs no work at all: every schedule leaves the initial state, the
summary is all zeros while the total is positive, and the completion
equality `success + failed + skipped = total` fails for every schedule. -/
theorem runPool_zero_workers (env : Env) (jobs : List Job) (hne : jobs ≠ []) :
    (∀ sched, runPool env 0 jobs sched = initState 0 jobs) ∧
    (∀ sched, summaryOf (runPool env 0 jobs sched) =
      { success := 0, failed := 0, skipped := 0 }) ∧
    0 < jobs.length ∧
    (∀ sched,
      (summaryOf (runPool env 0 jobs sched)).success +
        (summaryOf (runPool env 0 jobs sched)).failed +
        (summaryOf (runPool env 0 jobs sched)).skipped ≠ jobs.length) := by
  have hfix : ∀ sched : List Nat, runPool env 0 jobs sched = initState 0 jobs := by
    intro sched
    rw [runPool]
    induction sched with
    | nil => rfl
    | cons i is ih =>
      rw [List.foldl_cons,
        show poolStep env (initState 0 jobs) i = initState 0 jobs by
          simp [poolStep, initState]]
      exact ih
  have hlen : 0 < jobs.length := List.length_pos.mpr hne
  refine ⟨hfix, ?_, hlen, ?_⟩
  · intro sched
    rw [hfix sched]
    rfl
  · intro sched
    rw [hfix sched]
    show (summaryOf (initState 0 jobs)).success +
        (summaryOf (initState 0 jobs)).failed +
        (summaryOf (initState 0 jobs)).skipped ≠ jobs.length
    simp only [summaryOf, initState, countsOf, List.count_nil]
    omega

/-- Witness for C10 at a concrete non-empty job list. -/
theorem runPool_zero_workers_witness :
    (∀ sched, runPool envTest 0 jobsTest sched = initState 0 jobsTest) ∧
    (∀ sched, summaryOf (runPool envTest 0 jobsTest sched) =
      { success := 0, failed := 0, skipped := 0 }) ∧
    0 < jobsTest.length ∧
    (∀ sched,
      (summaryOf (runPool envTest 0 jobsTest sched)).success +
        (summaryOf (runPool envTest 0 jobsTest sched)).failed +
        (summaryOf (runPool envTest 0 jobsTest sched)).skipped ≠ jobsTest.length) :=
  runPool_zero_workers envTest jobsTest (by decide)

end TerminalCli

namespace TerminalCli

/-! ## Claim C7: link-resolution error classification -/

/-- C7.  On a non-200 response the error is the body's `message` when
non-empty, else the "file not found" error exactly for status 404, else
"api status N"; and a job whose link resolution fails (with the local file
absent) is classified Failed rather than crashing. -/
theorem fetchDownloadLink_error_classification (resp : ApiResponse)
    (hst : resp.status ≠ 200) :
    (resp.message ≠ "" → fetchDownloadLink resp = .error resp.message) ∧
    (resp.message = "" → resp.status = 404 →
      fetchDownloadLink resp = .error "file not found on server") ∧
    (resp.message = "" → resp.status ≠ 404 →
      fetchDownloadLink resp = .error ("api status " ++ toString resp.status)) ∧
    (∀ (env : Env) (job : Job) (err : String),
      env.fileExists (jobFullPath env job) = false →
      env.fetchLink env.apiKey (jobRelPath env job) = .error err →
      (processJob env job).1 = Outcome.failed) := by
  have h200 : (resp.status != 200) = true := by simpa using hst
  refine ⟨?_, ?_, ?_, ?_⟩
  · intro hmsg
    have hm : (resp.message != "") = true := by simpa using hmsg
    simp [fetchDownloadLink, h200, hm]
  · intro hmsg h404
    have hm : (resp.message != "") = false := by simpa using hmsg
    have h4 : (resp.status == 404) = true := by simpa using h404
    simp [fetchDownloadLink, h200, hm, h4]
  · intro hmsg h404
    have hm : (resp.message != "") = false := by simpa using hmsg
    have h4 : (resp.status == 404) = false := by simpa using h404
    simp [fetchDownloadLink, h200, hm, h4]
  · intro env job err hex hfetch
    have hex' : env.fileExists ("downloads/" ++ jobRelPath env job) = false := hex
    simp [processJob, hex', hfetch]

/-- Witness for C7: a 404 response with an empty message. -/
theorem fetchDownloadLink_error_classification_witness :
    let resp : ApiResponse := ⟨404, "", 0, true, ""⟩
    (resp.message ≠ "" → fetchDownloadLink resp = .error resp.message) ∧
    (resp.message = "" → resp.status = 404 →
      fetchDownloadLink resp = .error "file not found on server") ∧
    (resp.message = "" → resp.status ≠ 404 →
      fetchDownloadLink resp = .error ("api status " ++ toString resp.status)) ∧
    (∀ (env : Env) (job : Job) (err : String),
      env.fileExists (jobFullPath env job) = false →
      env.fetchLink env.apiKey (jobRelPath env job) = .error err →
      (processJob env job).1 = Outcome.failed) :=
  fetchDownloadLink_error_classification ⟨404, "", 0, true, ""⟩ (by decide)

end TerminalCli

namespace TerminalCli

/-! ## Claim C8: empty result is a clean exit -/

/-- C8.  When `startDate > endDate` the expansion loop body never runs, the
job list is empty, and day mode warns "No matching files found" and returns
cleanly (exit code 0) instead of erroring; in general that clean-warning
branch is taken exactly when the expansion is empty, and no link-resolution
or download work is reachable from it. -/
theorem emptyResult_not_error (rules : List ConfigRule)
    (exchanges tokens : List String) (s e : Nat) :
    (s > e → expandJobs rules exchanges tokens s e = [] ∧
      runDayMode rules exchanges tokens s e = RunOutcome.warnNoMatches) ∧
    (runDayMode rules exchanges tokens s e = RunOutcome.warnNoMatches ↔
      expandJobs rules exchanges tokens s e = []) := by
  have hiff : runDayMode rules exchanges tokens s e = RunOutcome.warnNoMatches ↔
      expandJobs rules exchanges tokens s e = [] := by
    unfold runDayMode
    by_cases h : expandJobs rules exchanges tokens s e = []
    · simp [h]
    · have hne : (expandJobs rules exchanges tokens s e).isEmpty = false := by
        simpa [List.isEmpty_iff] using h
      simp [hne, h]
  refine ⟨?_, hiff⟩
  intro hgt
  have hdr : dateRange s e = [] := by
    unfold dateRange
    have h0 : e + 1 - s = 0 := by omega
    rw [h0]
    rfl
  have hemp : expandJobs rules exchanges tokens s e = [] := by
    simp [expandJobs, hdr]
  exact ⟨hemp, hiff.mpr hemp⟩

/-- Witness for C8 at a concrete reversed range. -/
theorem emptyResult_not_error_witness :
    let rules : List ConfigRule := [⟨1, [("binance", ["btc_usdt"])]⟩]
    (5 > 3 → expandJobs rules ["binance"] ["btc_usdt"] 5 3 = [] ∧
      runDayMode rules ["binance"] ["btc_usdt"] 5 3 = RunOutcome.warnNoMatches) ∧
    (runDayMode rules ["binance"] ["btc_usdt"] 5 3 = RunOutcome.warnNoMatches ↔
      expandJobs rules ["binance"] ["btc_usdt"] 5 3 = []) :=
  emptyResult_not_error _ ["binance"] ["btc_usdt"] 5 3

end TerminalCli

namespace TerminalCli

/-! ## Claim C3: check-mode block merging — map lemmas -/

/-- A successful lookup returns an entry of the table. -/
theorem lookup_some_mem (c : Config) (k : String) (v : List String)
    (h : lookupConfig c k = some v) : (k, v) ∈ c := by
  induction c with
  | nil => simp [lookupConfig] at h
  | cons p rest ih =>
    obtain ⟨k', v'⟩ := p
    by_cases hk : k' = k
    · subst hk
      simp only [lookupConfig, beq_self_eq_true, if_true, Option.some.injEq] at h
      subst h
      exact List.mem_cons_self _ _
    · have hb : (k' == k) = false := by simpa using hk
      simp only [lookupConfig, hb, Bool.false_eq_true, if_false] at h
      exact List.mem_cons_of_mem _ (ih h)

/-- With distinct keys, every entry is found by lookup. -/
theorem lookup_of_mem_nodup (c : Config) (hnd : keysNodup c) (k : String)
    (v : List String) (h : (k, v) ∈ c) : lookupConfig c k = some v := by
  induction c with
  | nil => simp at h
  | cons p rest ih =>
    obtain ⟨k', v'⟩ := p
    rw [keysNodup, List.map_cons, List.nodup_cons] at hnd
    obtain ⟨hk', hrest⟩ := hnd
    rcases List.mem_cons.mp h with heq | hmem
    · obtain ⟨h1, h2⟩ := Prod.mk.injEq .. ▸ heq
      subst h1
      subst h2
      simp [lookupConfig]
    · have hkmem : k ∈ rest.map Prod.fst := by
        have := List.mem_map_of_mem Prod.fst hmem
        simpa using this
      have hne : (k' == k) = false := by
        refine beq_eq_false_iff_ne.mpr fun hkk => ?_
        subst hkk
        exact hk' hkmem
      simp only [lookupConfig, hne, Bool.false_eq_true, if_false]
      exact ih hrest hmem

/-- Lookup misses exactly the keys outside the table. -/
theorem lookup_eq_none_iff (c : Config) (k : String) :
    lookupConfig c k = none ↔ k ∉ c.map Prod.fst := by
  induction c with
  | nil => simp [lookupConfig]
  | cons p rest ih =>
    obtain ⟨k', v'⟩ := p
    by_cases hk : k' = k
    · subst hk
      simp [lookupConfig]
    · have hb : (k' == k) = false := by simpa using hk
      simp only [lookupConfig, hb, Bool.false_eq_true, if_false, List.map_cons,
        List.mem_cons, ih]
      constructor
      · intro hnot hor
        rcases hor with h1 | h2
        · exact hk h1.symm
        · exact hnot h2
      · intro hnot hmem
        exact hnot (Or.inr hmem)

end TerminalCli

namespace TerminalCli

/-! ## Claim C3: deep equality of filtered tables -/

/-- `isDataEqual` implies equal sizes. -/
theorem isDataEqual_length {a b : Config} (h : isDataEqual a b = true) :
    a.length = b.length := by
  rw [isDataEqual, Bool.and_eq_true] at h
  simpa using h.1

/-- A non-empty table is never `isDataEqual` to the empty one. -/
theorem isDataEqual_nil_right {a : Config} (h : a ≠ []) : isDataEqual a [] = false := by
  cases hx : isDataEqual a [] with
  | false => rfl
  | true =>
    have := isDataEqual_length hx
    simp only [List.length_nil, List.length_eq_zero] at this
    exact absurd this h

/-- `isDataEqual` preserves non-emptiness. -/
theorem isDataEqual_ne_nil {a b : Config} (h : isDataEqual a b = true) (hne : a ≠ []) :
    b ≠ [] := by
  intro hb
  subst hb
  rw [isDataEqual_nil_right hne] at h
  exact absurd h (by simp)

/-- On tables with distinct keys, the code's `isDataEqual` decides exactly
deep equality: same key set and identical (sorted) pair list per key. -/
theorem isDataEqual_iff_lookup (a b : Config) (ha : keysNodup a) (hb : keysNodup b) :
    isDataEqual a b = true ↔ ∀ k, lookupConfig a k = lookupConfig b k := by
  constructor
  · intro h k
    rw [isDataEqual, Bool.and_eq_true, List.all_eq_true] at h
    obtain ⟨hlen, hall⟩ := h
    have hlen' : a.length = b.length := by simpa using hlen
    cases hla : lookupConfig a k with
    | some v =>
      have hmem := lookup_some_mem a k v hla
      have hthis := hall (k, v) hmem
      cases hlb : lookupConfig b k with
      | none => rw [hlb] at hthis; simp at hthis
      | some vB =>
        rw [hlb] at hthis
        simp only [beq_iff_eq] at hthis
        rw [hthis]
    | none =>
      rw [lookup_eq_none_iff] at hla
      cases hlb : lookupConfig b k with
      | none => rfl
      | some vB =>
        exfalso
        have hsub : ∀ x ∈ a.map Prod.fst, x ∈ b.map Prod.fst := by
          intro x hx
          rw [List.mem_map] at hx
          obtain ⟨⟨k1, v1⟩, hmem1, hx1⟩ := hx
          subst hx1
          have hthis := hall (k1, v1) hmem1
          cases hlb1 : lookupConfig b k1 with
          | none => rw [hlb1] at hthis; simp at hthis
          | some v2 =>
            have hm2 : (k1, v2) ∈ b := lookup_some_mem b k1 v2 hlb1
            have := List.mem_map_of_mem Prod.fst hm2
            simpa using this
        have hcard : (b.map Prod.fst).toFinset.card ≤ (a.map Prod.fst).toFinset.card := by
          rw [List.toFinset_card_of_nodup ha, List.toFinset_card_of_nodup hb]
          simp [hlen']
        have hsubF : (a.map Prod.fst).toFinset ⊆ (b.map Prod.fst).toFinset := by
          intro x hx
          rw [List.mem_toFinset] at hx ⊢
          exact hsub x hx
        have heqF := Finset.eq_of_subset_of_card_le hsubF hcard
        have hkb : k ∈ (b.map Prod.fst).toFinset := by
          rw [List.mem_toFinset]
          have := List.mem_map_of_mem Prod.fst (lookup_some_mem b k vB hlb)
          simpa using this
        rw [← heqF, List.mem_toFinset] at hkb
        exact hla hkb
  · intro h
    rw [isDataEqual, Bool.and_eq_true, List.all_eq_true]
    have hseteq : ∀ x, x ∈ a.map Prod.fst ↔ x ∈ b.map Prod.fst := by
      intro x
      constructor
      · intro hx
        cases hla : lookupConfig a x with
        | none => rw [lookup_eq_none_iff] at hla; exact absurd hx hla
        | some v =>
          have hlb : lookupConfig b x = some v := (h x) ▸ hla
          have := List.mem_map_of_mem Prod.fst (lookup_some_mem b x v hlb)
          simpa using this
      · intro hx
        cases hlb : lookupConfig b x with
        | none => rw [lookup_eq_none_iff] at hlb; exact absurd hx hlb
        | some v =>
          have hla : lookupConfig a x = some v := (h x).trans hlb
          have := List.mem_map_of_mem Prod.fst (lookup_some_mem a x v hla)
          simpa using this
    constructor
    · have hfin : (a.map Prod.fst).toFinset = (b.map Prod.fst).toFinset := by
        ext x
        simp only [List.mem_toFinset]
        exact hseteq x
      have ca := List.toFinset_card_of_nodup ha
      have cb := List.toFinset_card_of_nodup hb
      rw [hfin] at ca
      rw [cb] at ca
      simp only [List.length_map] at ca
      simpa using ca.symm
    · intro kv hkv
      obtain ⟨k1, v1⟩ := kv
      have hla : lookupConfig a k1 = some v1 := lookup_of_mem_nodup a ha k1 v1 hkv
      have hlb : lookupConfig b k1 = some v1 := (h k1) ▸ hla
      rw [hlb]
      simp

/-- Reflexivity of `isDataEqual` on tables with distinct keys. -/
theorem isDataEqual_refl (a : Config) (ha : keysNodup a) : isDataEqual a a = true :=
  (isDataEqual_iff_lookup a a ha ha).mpr fun _ => rfl

/-- Tables equal to the same table are `isDataEqual` to each other: used to
show a freshly opened block differs from the previous day. -/
theorem isDataEqual_trans_ne (a b c : Config) (ha : keysNodup a) (hb : keysNodup b)
    (hc : keysNodup c) (hab : isDataEqual a b = true) (hac : isDataEqual a c = false) :
    isDataEqual c b = false := by
  cases hx : isDataEqual c b with
  | false => rfl
  | true =>
    exfalso
    have h1 := (isDataEqual_iff_lookup a b ha hb).mp hab
    have h2 := (isDataEqual_iff_lookup c b hc hb).mp hx
    have : isDataEqual a c = true :=
      (isDataEqual_iff_lookup a c ha hc).mpr fun k => (h1 k).trans (h2 k).symm
    rw [this] at hac
    exact absurd hac (by simp)

end TerminalCli

namespace TerminalCli

/-! ## Claim C3: distinct keys survive filtering -/

/-- A key-preserving `filterMap` keeps the key list a sublist. -/
theorem filterMap_fst_sublist (c : Config)
    (g : String × List String → Option (String × List String))
    (hg : ∀ p q, g p = some q → q.1 = p.1) :
    List.Sublist ((c.filterMap g).map Prod.fst) (c.map Prod.fst) := by
  induction c with
  | nil => simp
  | cons p rest ih =>
    rw [List.filterMap_cons]
    cases hgp : g p with
    | none =>
      rw [List.map_cons]
      exact ih.cons _
    | some q =>
      rw [List.map_cons, List.map_cons, hg p q hgp]
      exact ih.cons₂ _

/-- The day filter keeps keys distinct. -/
theorem filterDay_keysNodup (cfg : Option Config) (exchanges tokens : List String)
    (h : ∀ c, cfg = some c → keysNodup c) :
    keysNodup (filterDay cfg exchanges tokens) := by
  cases cfg with
  | none => simp [filterDay, keysNodup]
  | some c =>
    have hc := h c rfl
    rw [keysNodup] at hc ⊢
    refine List.Nodup.sublist (filterMap_fst_sublist c _ ?_) hc
    intro p q hpq
    simp only at hpq
    by_cases h1 : exchanges.length > 0 && !(contains exchanges p.1)
    · rw [if_pos h1] at hpq
      exact absurd hpq (by simp)
    · rw [if_neg h1] at hpq
      by_cases h2 : (sortStrings (p.2.filter fun pair =>
          !(tokens.length > 0 && !(contains tokens pair)))).length > 0
      · rw [if_pos h2] at hpq
        cases hpq
        rfl
      · rw [if_neg h2] at hpq
        exact absurd hpq (by simp)

/-- Every day's filtered table has distinct keys when all rule tables do. -/
theorem dayTable_keysNodup (rules : List ConfigRule) (exchanges tokens : List String)
    (d : Nat) (hnd : ∀ r ∈ rules, keysNodup r.config) :
    keysNodup (dayTable rules exchanges tokens d) := by
  rw [dayTable]
  refine filterDay_keysNodup _ _ _ ?_
  intro c hc
  obtain ⟨r, hr, _, hcfg⟩ := getConfigForDate_some_mem rules d c hc
  exact hcfg ▸ hnd r hr

end TerminalCli

namespace TerminalCli

/-! ## Claim C3: the block-merge invariant -/

/-- Processing one more day preserves the check-mode invariant. -/
theorem checkInv_step (rules : List ConfigRule) (exchanges tokens : List String)
    (hD : ∀ d, keysNodup (dayTable rules exchanges tokens d)) (s k : Nat)
    (st : List AvailabilityBlock × Option AvailabilityBlock)
    (hinv : CheckInv (dayTable rules exchanges tokens) s k st) :
    CheckInv (dayTable rules exchanges tokens) s (k + 1)
      (checkStep rules exchanges tokens st (s + k)) := by
  obtain ⟨bs, cbO⟩ := st
  obtain ⟨hclosed, hopened, hnone, hcov, hsort, hbefore⟩ := hinv
  simp only at hclosed hopened hnone hcov hsort hbefore
  cases cbO with
  | none =>
    by_cases hDe : dayTable rules exchanges tokens (s + k) = []
    · -- no open block, empty day: state unchanged
      have hie : (dayTable rules exchanges tokens (s + k)).isEmpty = true := by
        rw [hDe]
        rfl
      have hstep : checkStep rules exchanges tokens (bs, none) (s + k) = (bs, none) := by
        simp [checkStep, hie]
      rw [hstep]
      refine ⟨?_, ?_, ?_, ?_, hsort, ?_⟩
      · intro b hb
        obtain ⟨hok, hlt, hne⟩ := hclosed b hb
        exact ⟨hok, by omega, hne⟩
      · intro cb hcb
        exact absurd hcb (by simp)
      · intro _ _
        have h1 : s + (k + 1) - 1 = s + k := by omega
        rw [h1]
        exact hDe
      · intro d hsd hdk
        by_cases hdlt : d < s + k
        · exact hcov d hsd hdlt
        · have hdeq : d = s + k := by omega
          subst hdeq
          constructor
          · intro hne2
            exact absurd hDe hne2
          · rintro ⟨b, hbmem, hbs, hbe⟩
            rcases hbmem with h1 | h2
            · obtain ⟨_, hlt, _⟩ := hclosed b h1
              omega
            · exact absurd h2 (by simp)
      · intro b _ cb hcb
        exact absurd hcb (by simp)
    · -- no open block, non-empty day: open a fresh block
      have hie : (dayTable rules exchanges tokens (s + k)).isEmpty = false := by
        rw [Bool.eq_false_iff]
        intro hx
        exact hDe (List.isEmpty_iff.mp hx)
      have hstep : checkStep rules exchanges tokens (bs, none) (s + k) =
          (bs, some ⟨s + k, s + k, dayTable rules exchanges tokens (s + k)⟩) := by
        simp [checkStep, hie]
      rw [hstep]
      refine ⟨?_, ?_, ?_, ?_, hsort, ?_⟩
      · intro b hb
        obtain ⟨hok, hlt, hne⟩ := hclosed b hb
        exact ⟨hok, by omega, hne⟩
      · intro cb hcb
        injection hcb with h
        subst h
        refine ⟨⟨by simp only; omega, le_refl _, rfl, hDe, ?_, ?_⟩, by simp only; omega⟩
        · intro d hd1 hd2
          have hdeq : d = s + k := by
            simp only at hd1 hd2
            omega
          subst hdeq
          exact isDataEqual_refl _ (hD (s + k))
        · by_cases hk0 : k = 0
          · left
            simp only
            omega
          · right
            have hprev : dayTable rules exchanges tokens (s + k - 1) = [] :=
              hnone rfl (by omega)
            simp only
            rw [hprev]
            exact isDataEqual_nil_right hDe
      · intro hcb
        exact absurd hcb (by simp)
      · intro d hsd hdk
        by_cases hdlt : d < s + k
        · have hold := hcov d hsd hdlt
          constructor
          · intro hne2
            obtain ⟨b, hbmem, hbs, hbe⟩ := hold.mp hne2
            rcases hbmem with h1 | h2
            · exact ⟨b, Or.inl h1, hbs, hbe⟩
            · exact absurd h2 (by simp)
          · rintro ⟨b, hbmem, hbs, hbe⟩
            rcases hbmem with h1 | h2
            · exact hold.mpr ⟨b, Or.inl h1, hbs, hbe⟩
            · injection h2 with h
              subst h
              simp only at hbs
              omega
        · have hdeq : d = s + k := by omega
          subst hdeq
          constructor
          · intro _
            exact ⟨⟨s + k, s + k, dayTable rules exchanges tokens (s + k)⟩,
              Or.inr rfl, le_refl _, le_refl _⟩
          · intro _
            exact hDe
      · intro b hb cb hcb
        obtain ⟨_, hlt, _⟩ := hclosed b hb
        injection hcb with h
        subst h
        simp only
        omega
  | some cb =>
    obtain ⟨hcbok, hcbend⟩ := hopened cb rfl
    by_cases heq : isDataEqual cb.data (dayTable rules exchanges tokens (s + k)) = true
    · -- matching day: extend the open block
      have hstep : checkStep rules exchanges tokens (bs, some cb) (s + k) =
          (bs, some ⟨cb.start, s + k, cb.data⟩) := by
        simp [checkStep, heq]
      rw [hstep]
      refine ⟨?_, ?_, ?_, ?_, hsort, ?_⟩
      · intro b hb
        obtain ⟨hok, hlt, hne⟩ := hclosed b hb
        exact ⟨hok, by omega, hne⟩
      · intro ncb hncb
        injection hncb with h
        subst h
        have hle := hcbok.le
        refine ⟨⟨hcbok.lower, by simp only; omega, hcbok.data_eq, hcbok.ne, ?_, ?_⟩,
          by simp only; omega⟩
        · intro d hd1 hd2
          simp only at hd1 hd2 ⊢
          by_cases hdle : d ≤ cb.endD
          · exact hcbok.run_eq d hd1 hdle
          · have hdeq : d = s + k := by omega
            subst hdeq
            exact heq
        · simp only
          rcases hcbok.leftMax with h1 | h1
          · exact Or.inl h1
          · exact Or.inr h1
      · intro hcb
        exact absurd hcb (by simp)
      · intro d hsd hdk
        by_cases hdlt : d < s + k
        · have hold := hcov d hsd hdlt
          constructor
          · intro hne2
            obtain ⟨b, hbmem, hbs, hbe⟩ := hold.mp hne2
            rcases hbmem with h1 | h2
            · exact ⟨b, Or.inl h1, hbs, hbe⟩
            · injection h2 with h
              subst h
              refine ⟨⟨cb.start, s + k, cb.data⟩, Or.inr rfl, hbs, ?_⟩
              simp only
              omega
          · rintro ⟨b, hbmem, hbs, hbe⟩
            rcases hbmem with h1 | h2
            · exact hold.mpr ⟨b, Or.inl h1, hbs, hbe⟩
            · injection h2 with h
              subst h
              simp only at hbs hbe
              refine hold.mpr ⟨cb, Or.inr rfl, hbs, by omega⟩
        · have hdeq : d = s + k := by omega
          subst hdeq
          have hle := hcbok.le
          constructor
          · intro _
            refine ⟨⟨cb.start, s + k, cb.data⟩, Or.inr rfl, by simp only; omega,
              le_refl _⟩
          · intro _
            exact isDataEqual_ne_nil heq hcbok.ne
      · intro b hb ncb hncb
        injection hncb with h
        subst h
        simp only
        exact hbefore b hb cb rfl
    · -- mismatching day: close the block, maybe open a fresh one
      have heq' : isDataEqual cb.data (dayTable rules exchanges tokens (s + k)) = false := by
        rw [Bool.eq_false_iff]
        exact heq
      by_cases hDe : dayTable rules exchanges tokens (s + k) = []
      · have hie : (dayTable rules exchanges tokens (s + k)).isEmpty = true := by
          rw [hDe]
          rfl
        have hstep : checkStep rules exchanges tokens (bs, some cb) (s + k) =
            (bs ++ [cb], none) := by
          simp [checkStep, heq', hie]
        rw [hstep]
        refine ⟨?_, ?_, ?_, ?_, ?_, ?_⟩
        · intro b hb
          rcases List.mem_append.mp hb with h1 | h2
          · obtain ⟨hok, hlt, hne⟩ := hclosed b h1
            exact ⟨hok, by omega, hne⟩
          · have hbc : b = cb := by simpa using h2
            subst hbc
            refine ⟨hcbok, by omega, ?_⟩
            rw [show b.endD + 1 = s + k from hcbend]
            exact heq'
        · intro cb2 hcb2
          exact absurd hcb2 (by simp)
        · intro _ _
          have h1 : s + (k + 1) - 1 = s + k := by omega
          rw [h1]
          exact hDe
        · intro d hsd hdk
          by_cases hdlt : d < s + k
          · have hold := hcov d hsd hdlt
            constructor
            · intro hne2
              obtain ⟨b, hbmem, hbs, hbe⟩ := hold.mp hne2
              rcases hbmem with h1 | h2
              · exact ⟨b, Or.inl (List.mem_append_left _ h1), hbs, hbe⟩
              · injection h2 with h
                subst h
                exact ⟨cb, Or.inl (List.mem_append_right _ (List.mem_singleton_self cb)),
                  hbs, hbe⟩
            · rintro ⟨b, hbmem, hbs, hbe⟩
              rcases hbmem with h1 | h2
              · rcases List.mem_append.mp h1 with h3 | h4
                · exact hold.mpr ⟨b, Or.inl h3, hbs, hbe⟩
                · have hbc : b = cb := by simpa using h4
                  subst hbc
                  exact hold.mpr ⟨b, Or.inr rfl, hbs, hbe⟩
              · exact absurd h2 (by simp)
          · have hdeq : d = s + k := by omega
            subst hdeq
            constructor
            · intro hne2
              exact absurd hDe hne2
            · rintro ⟨b, hbmem, hbs, hbe⟩
              rcases hbmem with h1 | h2
              · rcases List.mem_append.mp h1 with h3 | h4
                · obtain ⟨_, hlt, _⟩ := hclosed b h3
                  omega
                · have hbc : b = cb := by simpa using h4
                  subst hbc
                  omega
              · exact absurd h2 (by simp)
        · rw [List.pairwise_append]
          refine ⟨hsort, by simp, ?_⟩
          intro b hb b' hb'
          have hbc : b' = cb := by simpa using hb'
          subst hbc
          exact hbefore b hb b' rfl
        · intro b _ cb2 hcb2
          exact absurd hcb2 (by simp)
      · have hie : (dayTable rules exchanges tokens (s + k)).isEmpty = false := by
          rw [Bool.eq_false_iff]
          intro hx
          exact hDe (List.isEmpty_iff.mp hx)
        have hstep : checkStep rules exchanges tokens (bs, some cb) (s + k) =
            (bs ++ [cb], some ⟨s + k, s + k, dayTable rules exchanges tokens (s + k)⟩) := by
          simp [checkStep, heq', hie]
        rw [hstep]
        refine ⟨?_, ?_, ?_, ?_, ?_, ?_⟩
        · intro b hb
          rcases List.mem_append.mp hb with h1 | h2
          · obtain ⟨hok, hlt, hne⟩ := hclosed b h1
            exact ⟨hok, by omega, hne⟩
          · have hbc : b = cb := by simpa using h2
            subst hbc
            refine ⟨hcbok, by omega, ?_⟩
            rw [show b.endD + 1 = s + k from hcbend]
            exact heq'
        · intro ncb hncb
          injection hncb with h
          subst h
          refine ⟨⟨by simp only; omega, le_refl _, rfl, hDe, ?_, ?_⟩,
            by simp only; omega⟩
          · intro d hd1 hd2
            simp only at hd1 hd2
            have hdeq : d = s + k := by omega
            subst hdeq
            exact isDataEqual_refl _ (hD (s + k))
          · right
            have hle := hcbok.le
            have hprev : isDataEqual cb.data
                (dayTable rules exchanges tokens (s + k - 1)) = true := by
              refine hcbok.run_eq (s + k - 1) (by omega) (by omega)
            simp only
            exact isDataEqual_trans_ne cb.data
              (dayTable rules exchanges tokens (s + k - 1))
              (dayTable rules exchanges tokens (s + k))
              (hcbok.data_eq ▸ hD cb.start) (hD _) (hD _) hprev heq'
        · intro hcb
          exact absurd hcb (by simp)
        · intro d hsd hdk
          by_cases hdlt : d < s + k
          · have hold := hcov d hsd hdlt
            constructor
            · intro hne2
              obtain ⟨b, hbmem, hbs, hbe⟩ := hold.mp hne2
              rcases hbmem with h1 | h2
              · exact ⟨b, Or.inl (List.mem_append_left _ h1), hbs, hbe⟩
              · injection h2 with h
                subst h
                exact ⟨cb, Or.inl (List.mem_append_right _ (List.mem_singleton_self cb)),
                  hbs, hbe⟩
            · rintro ⟨b, hbmem, hbs, hbe⟩
              rcases hbmem with h1 | h2
              · rcases List.mem_append.mp h1 with h3 | h4
                · exact hold.mpr ⟨b, Or.inl h3, hbs, hbe⟩
                · have hbc : b = cb := by simpa using h4
                  subst hbc
                  exact hold.mpr ⟨b, Or.inr rfl, hbs, hbe⟩
              · injection h2 with h
                subst h
                simp only at hbs
                omega
          · have hdeq : d = s + k := by omega
            subst hdeq
            constructor
            · intro _
              exact ⟨⟨s + k, s + k, dayTable rules exchanges tokens (s + k)⟩,
                Or.inr rfl, le_refl _, le_refl _⟩
            · intro _
              exact hDe
        · rw [List.pairwise_append]
          refine ⟨hsort, by simp, ?_⟩
          intro b hb b' hb'
          have hbc : b' = cb := by simpa using hb'
          subst hbc
          exact hbefore b hb b' rfl
        · intro b hb ncb hncb
          injection hncb with h
          subst h
          simp only
          rcases List.mem_append.mp hb with h1 | h2
          · obtain ⟨_, hlt, _⟩ := hclosed b h1
            omega
          · have hbc : b = cb := by simpa using h2
            subst hbc
            omega

end TerminalCli

namespace TerminalCli

/-- The invariant holds after processing any prefix of the day range. -/
theorem checkInv_fold (rules : List ConfigRule) (exchanges tokens : List String)
    (hnd : ∀ r ∈ rules, keysNodup r.config) (s : Nat) :
    ∀ k, CheckInv (dayTable rules exchanges tokens) s k
      ((List.range' s k).foldl (checkStep rules exchanges tokens) ([], none)) := by
  have hD : ∀ d, keysNodup (dayTable rules exchanges tokens d) :=
    fun d => dayTable_keysNodup rules exchanges tokens d hnd
  intro k
  induction k with
  | zero =>
    refine ⟨?_, ?_, ?_, ?_, List.Pairwise.nil, ?_⟩
    · intro b hb
      exact absurd hb (by simp)
    · intro cb hcb
      exact absurd hcb (by simp)
    · intro _ h0
      exact absurd h0 (by omega)
    · intro d hsd hdk
      exact absurd hdk (by omega)
    · intro b hb
      exact absurd hb (by simp)
  | succ k ih =>
    have hconcat : List.range' s (k + 1) = List.range' s k ++ [s + k] := by
      have h := @List.range'_concat 1 s k
      simpa using h
    rw [hconcat, List.foldl_append, List.foldl_cons, List.foldl_nil]
    exact checkInv_step rules exchanges tokens hD s k _ ih

/-- C3.  The Availability Reporter emits, in ascending order and without
overlap, exactly one block per maximal run of consecutive days with equal
non-empty filtered tables: every block's data is the non-empty table of its
start day, every covered day's table equals it, the block is maximal on both
sides, a day is covered by some block exactly when its filtered table is
non-empty, and on distinct-keyed tables the code's `isDataEqual` is exactly
deep equality (same key set, identical pair list per key). -/
theorem runCheckMode_blocks (rules : List ConfigRule) (exchanges tokens : List String)
    (s e : Nat) (hnd : ∀ r ∈ rules, keysNodup r.config) :
    (∀ b ∈ runCheckMode rules exchanges tokens s e,
      s ≤ b.start ∧ b.start ≤ b.endD ∧ b.endD ≤ e ∧
      b.data = dayTable rules exchanges tokens b.start ∧ b.data ≠ [] ∧
      (∀ d, b.start ≤ d → d ≤ b.endD →
        isDataEqual b.data (dayTable rules exchanges tokens d) = true) ∧
      (b.start = s ∨
        isDataEqual b.data (dayTable rules exchanges tokens (b.start - 1)) = false) ∧
      (b.endD = e ∨
        isDataEqual b.data (dayTable rules exchanges tokens (b.endD + 1)) = false)) ∧
    (∀ d, s ≤ d → d ≤ e →
      (dayTable rules exchanges tokens d ≠ [] ↔
        ∃ b ∈ runCheckMode rules exchanges tokens s e, b.start ≤ d ∧ d ≤ b.endD)) ∧
    (runCheckMode rules exchanges tokens s e).Pairwise (fun b b' => b.endD < b'.start) ∧
    (∀ a b : Config, keysNodup a → keysNodup b →
      (isDataEqual a b = true ↔ ∀ key, lookupConfig a key = lookupConfig b key)) := by
  have hinv := checkInv_fold rules exchanges tokens hnd s (e + 1 - s)
  rcases hfold : (List.range' s (e + 1 - s)).foldl (checkStep rules exchanges tokens)
      ([], none) with ⟨bs, cbO⟩
  rw [hfold] at hinv
  obtain ⟨hclosed, hopened, hnone, hcov, hsort, hbefore⟩ := hinv
  simp only at hclosed hopened hnone hcov hsort hbefore
  have hrcm : runCheckMode rules exchanges tokens s e = bs ++ cbO.toList := by
    unfold runCheckMode dateRange
    rw [hfold]
  rw [hrcm]
  refine ⟨?_, ?_, ?_, fun a b ha hb => isDataEqual_iff_lookup a b ha hb⟩
  · intro b hb
    rcases List.mem_append.mp hb with h1 | h2
    · obtain ⟨hok, hlt, hne⟩ := hclosed b h1
      have h3 := hok.lower
      have h4 := hok.le
      exact ⟨hok.lower, hok.le, by omega, hok.data_eq, hok.ne, hok.run_eq,
        hok.leftMax, Or.inr hne⟩
    · have hcb : cbO = some b := by
        cases cbO with
        | none => simp at h2
        | some x =>
          simp only [Option.toList_some, List.mem_singleton] at h2
          rw [h2]
      obtain ⟨hok, hend⟩ := hopened b hcb
      have h3 := hok.lower
      have h4 := hok.le
      have hbe : b.endD = e := by omega
      exact ⟨h3, h4, by omega, hok.data_eq, hok.ne, hok.run_eq, hok.leftMax,
        Or.inl hbe⟩
  · intro d hsd hde
    have hdk : d < s + (e + 1 - s) := by omega
    have hc := hcov d hsd hdk
    rw [hc]
    constructor
    · rintro ⟨b, hbmem, hbs, hbe⟩
      rcases hbmem with h1 | h2
      · exact ⟨b, List.mem_append_left _ h1, hbs, hbe⟩
      · refine ⟨b, List.mem_append_right _ ?_, hbs, hbe⟩
        rw [h2]
        simp
    · rintro ⟨b, hbmem, hbs, hbe⟩
      rcases List.mem_append.mp hbmem with h1 | h2
      · exact ⟨b, Or.inl h1, hbs, hbe⟩
      · refine ⟨b, Or.inr ?_, hbs, hbe⟩
        cases cbO with
        | none => simp at h2
        | some x =>
          simp only [Option.toList_some, List.mem_singleton] at h2
          rw [h2]
  · rw [List.pairwise_append]
    refine ⟨hsort, ?_, ?_⟩
    · cases cbO with
      | none => simp
      | some x => simp
    · intro b hb b' hb'
      have hcb : cbO = some b' := by
        cases cbO with
        | none => simp at hb'
        | some x =>
          simp only [Option.toList_some, List.mem_singleton] at hb'
          rw [hb']
      exact hbefore b hb b' hcb

/-- Witness for C3 on a concrete one-rule configuration and range. -/
theorem runCheckMode_blocks_witness :
    let rules : List ConfigRule := [⟨1, [("binance", ["btc_usdt"])]⟩]
    (∀ b ∈ runCheckMode rules [] [] 1 2,
      1 ≤ b.start ∧ b.start ≤ b.endD ∧ b.endD ≤ 2 ∧
      b.data = dayTable rules [] [] b.start ∧ b.data ≠ [] ∧
      (∀ d, b.start ≤ d → d ≤ b.endD →
        isDataEqual b.data (dayTable rules [] [] d) = true) ∧
      (b.start = 1 ∨ isDataEqual b.data (dayTable rules [] [] (b.start - 1)) = false) ∧
      (b.endD = 2 ∨ isDataEqual b.data (dayTable rules [] [] (b.endD + 1)) = false)) ∧
    (∀ d, 1 ≤ d → d ≤ 2 →
      (dayTable rules [] [] d ≠ [] ↔
        ∃ b ∈ runCheckMode rules [] [] 1 2, b.start ≤ d ∧ d ≤ b.endD)) ∧
    (runCheckMode rules [] [] 1 2).Pairwise (fun b b' => b.endD < b'.start) ∧
    (∀ a b : Config, keysNodup a → keysNodup b →
      (isDataEqual a b = true ↔ ∀ key, lookupConfig a key = lookupConfig b key)) :=
  runCheckMode_blocks [⟨1, [("binance", ["btc_usdt"])]⟩] [] [] 1 2
    (by
      intro r hr
      rw [List.mem_singleton] at hr
      subst hr
      rw [keysNodup]
      decide)

end TerminalCli
